import Mathlib

/-!
# ComplexGraphView.drawRect (apps/calculation/additional_outputs/complex_graph_cell.cpp)

A shallow embedding of the geometry computed by `ComplexGraphView::drawRect`:
the radius segment, the partial ellipse showing the argument, and the four
labels.  The function is embedded twice.  In `drawRect` the C++ `float` type
is a linearly ordered field `F` (exact arithmetic); the functions taken from
`<cmath>` / `<complex>` are a parameter of the embedding (`Libm F`),
instantiated on `ℝ` by `realLibm`.  In `drawRect32` the arithmetic is the one
of IEEE 754: binary32 for `float`, binary64 for `M_PI`, with signed zeros,
infinities, NaN, overflow and underflow.
-/

namespace Calculation

/-- The scalar functions and the constant that `drawRect` takes from the C
library: `std::atan`, `std::tan`, `std::cos`, `std::sin`, `std::arg` (of the
complex number with the given real and imaginary parts) and `M_PI`. -/
structure Libm (F : Type) where
  atan : F → F
  tan : F → F
  cos : F → F
  sin : F → F
  arg : F → F → F
  pi : F

/-- The part of `ComplexModel` read by `drawRect`: a `std::complex<float>`. -/
structure ComplexModel (F : Type) where
  real : F
  imag : F

/-- The enumeration `CurveView::RelativePosition`. -/
inductive RelativePosition where
  | None
  | Before
  | After
  deriving DecidableEq, Repr

/-- The arguments of one `drawLabel` call: anchor, text, horizontal and
vertical relative positions. -/
structure Label (F : Type) where
  x : F
  y : F
  text : String
  horizontalPosition : RelativePosition
  verticalPosition : RelativePosition

/-- The first lambda handed to `drawCurve` (lines 29-32): the segment from the
origin to the dot, `x(t) = real*t`, `y(t) = imag*t`. -/
def segmentCurve {F : Type} [LinearOrderedField F] (m : ComplexModel F) (t : F) : F × F :=
  (m.real * t, m.imag * t)

/-- The second lambda handed to `drawCurve` (lines 61-67): the partial
ellipse `x(t) = a*cos(t*th)`, `y(t) = b*sin(t*th)`. -/
def arcCurve {F : Type} [LinearOrderedField F] (M : Libm F) (a b th : F) (t : F) : F × F :=
  (a * M.cos (t * th), b * M.sin (t * th))

/-- What one call of `drawRect` hands to the drawing primitives, in the order
of the calls: the two curves (with the parameters `a`, `b`, `th` of the
second one), the two dashed segments, the dot and the four labels. -/
structure Scene (F : Type) where
  segment : F → F × F
  a : F
  b : F
  th : F
  arc : F → F × F
  verticalSegment : F × F × F
  horizontalSegment : F × F × F
  dot : F × F
  reLabel : Label F
  imLabel : Label F
  modLabel : Label F
  argLabel : Label F

/-- The value of `th` after lines 46-49: the arctangent formula and its
correction by `± M_PI` in the left half plane. -/
def thGeneral {F : Type} [LinearOrderedField F] (M : Libm F) (real imag : F) : F :=
  let th := M.atan (|real / imag| * M.tan (M.arg real imag))
  if real < 0 then th + (if imag < 0 then -M.pi else M.pi) else th

/-- The body of `ComplexGraphView::drawRect` from line 23 on, in exact
arithmetic.  The failing `assert(imag != 0.0f)` is the result `none`. -/
def drawRect {F : Type} [LinearOrderedField F] (M : Libm F) (m_complex : ComplexModel F) :
    Option (Scene F) :=
  let real := m_complex.real
  let imag := m_complex.imag
  if imag = 0 then none
  else
    let th := thGeneral M real imag
    let factor : F := 5
    let a := |real| / factor
    let b := |imag| / factor
    let a := if real = 0 then 1 / factor else a
    let th := if real = 0 then (if imag < 0 then -M.pi / 2 else M.pi / 2) else th
    let verticalPosition :=
      if real * imag < 0 then RelativePosition.Before else RelativePosition.After
    let verticalPosition :=
      if real = 0 then RelativePosition.None else verticalPosition
    let modLabel : Label F :=
      ⟨real / 2, imag / 2, "|z|", RelativePosition.None, verticalPosition⟩
    let horizontalPosition :=
      if 0 ≤ real then RelativePosition.After else RelativePosition.None
    let verticalPosition :=
      if 0 ≤ imag then RelativePosition.After else RelativePosition.Before
    let anglePositionRatio : F := if 0 ≤ real then 0 else 1 / 2
    some
      { segment := segmentCurve m_complex
        a := a
        b := b
        th := th
        arc := arcCurve M a b th
        verticalSegment := (real, 0, imag)
        horizontalSegment := (imag, 0, real)
        dot := (real, imag)
        reLabel := ⟨real, 0, "re(z)", RelativePosition.None,
          if 0 ≤ imag then RelativePosition.Before else RelativePosition.After⟩
        imLabel := ⟨0, imag, "im(θ)",
          if 0 ≤ real then RelativePosition.Before else RelativePosition.After,
          RelativePosition.None⟩
        modLabel := modLabel
        argLabel := ⟨a * M.cos (anglePositionRatio * th), b * M.sin (anglePositionRatio * th),
          "arg(z)", horizontalPosition, verticalPosition⟩ }

/-- The C library over exact real arithmetic: the real arctangent, tangent,
cosine and sine, the principal argument in `(-π, π]` and the number `π`. -/
noncomputable def realLibm : Libm ℝ where
  atan := Real.arctan
  tan := Real.tan
  cos := Real.cos
  sin := Real.sin
  arg := fun re im => Complex.arg ⟨re, im⟩
  pi := Real.pi

/-! ## Binary32 arithmetic

The same function with the arithmetic of the C++ code: `float` is IEEE 754
binary32, `M_PI` is a binary64 constant, every operation rounds to nearest,
ties to even. -/

/-- A floating-point datum of IEEE 754, of no particular format: a NaN, an
infinity, or the finite number `(-1)^neg * m * 2^e` (a signed zero when
`m = 0`). -/
inductive Fp where
  | nan
  | inf (neg : Bool)
  | fin (neg : Bool) (m : Nat) (e : Int)
  deriving DecidableEq, Repr

/-- Number of binary digits of `n`, with fuel. -/
def bitLengthAux : Nat → Nat → Nat
  | 0, _ => 0
  | fuel + 1, n => if n = 0 then 0 else bitLengthAux fuel (n / 2) + 1

/-- Number of binary digits of `n` (`0` for `n = 0`). -/
def bitLength (n : Nat) : Nat := bitLengthAux n n

/-- Rounding to nearest, ties to even, into the format of precision `p`,
least exponent of the last place `emin` and overflow threshold `2^emax`, of
the number of sign `neg` and magnitude in `[M * 2^E, (M+1) * 2^E)`; `sticky`
tells that the magnitude is not exactly `M * 2^E`, and is only used with an
`M` of more than `p` digits. -/
def roundTo (p : Nat) (emin : Int) (emax : Nat) (neg : Bool) (M : Nat) (E : Int)
    (sticky : Bool) : Fp :=
  let e := max (E + bitLength M - p) emin
  let s := (e - E).toNat
  let q := M / 2 ^ s
  let r := M % 2 ^ s
  let half := 2 ^ (s - 1)
  let up := s != 0 && (decide (half < r) || (r == half && (sticky || q % 2 == 1)))
  let m := if up then q + 1 else q
  let x := E + s
  if 0 ≤ x ∧ 2 ^ emax ≤ m * 2 ^ x.toNat then Fp.inf neg else Fp.fin neg m x

/-- Multiplication of IEEE 754, rounded into the given format. -/
def mulTo (p : Nat) (emin : Int) (emax : Nat) : Fp → Fp → Fp
  | Fp.nan, _ => Fp.nan
  | _, Fp.nan => Fp.nan
  | Fp.inf a, Fp.inf b => Fp.inf (a != b)
  | Fp.inf a, Fp.fin b m _ => if m = 0 then Fp.nan else Fp.inf (a != b)
  | Fp.fin a m _, Fp.inf b => if m = 0 then Fp.nan else Fp.inf (a != b)
  | Fp.fin a m e, Fp.fin b n f => roundTo p emin emax (a != b) (m * n) (e + f) false

/-- Division of IEEE 754, rounded into the given format. -/
def divTo (p : Nat) (emin : Int) (emax : Nat) : Fp → Fp → Fp
  | Fp.nan, _ => Fp.nan
  | _, Fp.nan => Fp.nan
  | Fp.inf _, Fp.inf _ => Fp.nan
  | Fp.inf a, Fp.fin b _ _ => Fp.inf (a != b)
  | Fp.fin a _ _, Fp.inf b => Fp.fin (a != b) 0 0
  | Fp.fin a m e, Fp.fin b n f =>
    if n = 0 then (if m = 0 then Fp.nan else Fp.inf (a != b))
    else
      let k := bitLength n + p + 2
      roundTo p emin emax (a != b) (m * 2 ^ k / n) (e - f - k) (m * 2 ^ k % n != 0)

/-- Addition of IEEE 754, rounded into the given format. -/
def addTo (p : Nat) (emin : Int) (emax : Nat) : Fp → Fp → Fp
  | Fp.nan, _ => Fp.nan
  | _, Fp.nan => Fp.nan
  | Fp.inf a, Fp.inf b => if a = b then Fp.inf a else Fp.nan
  | Fp.inf a, Fp.fin _ _ _ => Fp.inf a
  | Fp.fin _ _ _, Fp.inf b => Fp.inf b
  | Fp.fin a m e, Fp.fin b n f =>
    let g := min e f
    let x : Int := (if a then -1 else 1) * (m * 2 ^ (e - g).toNat : Nat)
    let y : Int := (if b then -1 else 1) * (n * 2 ^ (f - g).toNat : Nat)
    if x + y = 0 then Fp.fin (a && b) 0 g
    else roundTo p emin emax (decide (x + y < 0)) (x + y).natAbs g false

/-- The `float` product `x * y`. -/
def mul32 (x y : Fp) : Fp := mulTo 24 (-149) 128 x y

/-- The `float` quotient `x / y`. -/
def div32 (x y : Fp) : Fp := divTo 24 (-149) 128 x y

/-- The `double` sum `x + y`. -/
def add64 (x y : Fp) : Fp := addTo 53 (-1074) 1024 x y

/-- The `double` quotient `x / y`. -/
def div64 (x y : Fp) : Fp := divTo 53 (-1074) 1024 x y

/-- Conversion of a `double` to `float`. -/
def toFloat : Fp → Fp
  | Fp.fin a m e => roundTo 24 (-149) 128 a m e false
  | x => x

/-- Unary minus. -/
def fneg : Fp → Fp
  | Fp.nan => Fp.nan
  | Fp.inf a => Fp.inf (!a)
  | Fp.fin a m e => Fp.fin (!a) m e

/-- The function `std::fabs`. -/
def fabs : Fp → Fp
  | Fp.nan => Fp.nan
  | Fp.inf _ => Fp.inf false
  | Fp.fin _ m e => Fp.fin false m e

/-- The comparison `x < 0.0f`. -/
def ltZero : Fp → Bool
  | Fp.nan => false
  | Fp.inf a => a
  | Fp.fin a m _ => a && m != 0

/-- The comparison `x == 0.0f`. -/
def eqZero : Fp → Bool
  | Fp.fin _ m _ => m == 0
  | _ => false

/-- The comparison `x >= 0.0f`. -/
def geZero : Fp → Bool
  | Fp.nan => false
  | Fp.inf a => !a
  | Fp.fin a m _ => !a || m == 0

/-- The first lambda handed to `drawCurve` (lines 29-32), in binary32. -/
def segmentCurve32 (m : ComplexModel Fp) (t : Fp) : Fp × Fp :=
  (mul32 m.real t, mul32 m.imag t)

/-- The second lambda handed to `drawCurve` (lines 61-67), in binary32. -/
def arcCurve32 (M : Libm Fp) (a b th : Fp) (t : Fp) : Fp × Fp :=
  (mul32 a (M.cos (mul32 t th)), mul32 b (M.sin (mul32 t th)))

/-- The value of `th` after lines 46-49, in binary32; the sum of line 48 is
computed in `double`, `M_PI` being one, and converted back to `float`. -/
def thGeneral32 (M : Libm Fp) (real imag : Fp) : Fp :=
  let th := M.atan (mul32 (fabs (div32 real imag)) (M.tan (M.arg real imag)))
  if ltZero real then toFloat (add64 th (if ltZero imag then fneg M.pi else M.pi)) else th

/-- The body of `ComplexGraphView::drawRect` from line 23 on, in binary32.
The failing `assert(imag != 0.0f)` is the result `none`. -/
def drawRect32 (M : Libm Fp) (m_complex : ComplexModel Fp) : Option (Scene Fp) :=
  let real := m_complex.real
  let imag := m_complex.imag
  if eqZero imag then none
  else
    let th := thGeneral32 M real imag
    let factor : Fp := Fp.fin false 5 0
    let a := div32 (fabs real) factor
    let b := div32 (fabs imag) factor
    let a := if eqZero real then div32 (Fp.fin false 1 0) factor else a
    let th :=
      if eqZero real then
        (if ltZero imag then toFloat (div64 (fneg M.pi) (Fp.fin false 2 0))
          else toFloat (div64 M.pi (Fp.fin false 2 0)))
      else th
    let verticalPosition :=
      if ltZero (mul32 real imag) then RelativePosition.Before else RelativePosition.After
    let verticalPosition :=
      if eqZero real then RelativePosition.None else verticalPosition
    let modLabel : Label Fp :=
      ⟨div32 real (Fp.fin false 2 0), div32 imag (Fp.fin false 2 0), "|z|",
        RelativePosition.None, verticalPosition⟩
    let horizontalPosition :=
      if geZero real then RelativePosition.After else RelativePosition.None
    let verticalPosition :=
      if geZero imag then RelativePosition.After else RelativePosition.Before
    let anglePositionRatio : Fp := if geZero real then Fp.fin false 0 0 else Fp.fin false 1 (-1)
    some
      { segment := segmentCurve32 m_complex
        a := a
        b := b
        th := th
        arc := arcCurve32 M a b th
        verticalSegment := (real, Fp.fin false 0 0, imag)
        horizontalSegment := (imag, Fp.fin false 0 0, real)
        dot := (real, imag)
        reLabel := ⟨real, Fp.fin false 0 0, "re(z)", RelativePosition.None,
          if geZero imag then RelativePosition.Before else RelativePosition.After⟩
        imLabel := ⟨Fp.fin false 0 0, imag, "im(θ)",
          if geZero real then RelativePosition.Before else RelativePosition.After,
          RelativePosition.None⟩
        modLabel := modLabel
        argLabel := ⟨mul32 a (M.cos (mul32 anglePositionRatio th)),
          mul32 b (M.sin (mul32 anglePositionRatio th)),
          "arg(z)", horizontalPosition, verticalPosition⟩ }

/-- The constant `M_PI` of `<cmath>`: the binary64 number nearest to `π`. -/
def M_PI : Fp := Fp.fin false 7074237752028440 (-51)

/-- A stand-in for the C library on floating-point data, made of the leading
terms of the functions at `0`: `atan x = tan x = sin x = x`, `cos x = 1` and
`arg (re, im) = im / re`, a NaN being returned for a NaN. -/
def leadingTermLibm : Libm Fp where
  atan := fun x => x
  tan := fun x => x
  cos := fun x => if x = Fp.nan then Fp.nan else Fp.fin false 1 0
  sin := fun x => x
  arg := fun re im => div32 im re
  pi := M_PI

/-! ## Auxiliary facts -/

/-- When the assertion holds, `drawRect` returns a scene whose arc parameters
are the ones of lines 46-58. -/
theorem drawRect_arc {F : Type} [LinearOrderedField F] (M : Libm F) (real imag : F)
    (h : imag ≠ 0) :
    ∃ s, drawRect M ⟨real, imag⟩ = some s ∧
      s.a = (if real = 0 then 1 / 5 else |real| / 5) ∧
      s.b = |imag| / 5 ∧
      s.th = (if real = 0 then (if imag < 0 then -M.pi / 2 else M.pi / 2)
        else thGeneral M real imag) ∧
      s.arc = arcCurve M s.a s.b s.th ∧
      s.segment = segmentCurve ⟨real, imag⟩ := by
  refine ⟨_, by simp only [drawRect, if_neg h]; rfl, ?_⟩
  simp

/-- The tangent of the argument is the quotient of the two parts. -/
theorem tan_arg_real (re im : ℝ) : realLibm.tan (realLibm.arg re im) = im / re := by
  simp [realLibm, Complex.tan_arg]

/-- The argument of the arctangent in line 46 is `1` when the two parts have
the same sign. -/
theorem atan_operand_same_sign (re im : ℝ) (h : 0 < re * im) :
    |re / im| * realLibm.tan (realLibm.arg re im) = 1 := by
  have hre : re ≠ 0 := fun h0 => by simp [h0] at h
  have him : im ≠ 0 := fun h0 => by simp [h0] at h
  have hq : 0 < re / im := by
    have : re / im = re * im / (im * im) := by field_simp; ring
    rw [this]
    exact div_pos h (mul_self_pos.mpr him)
  rw [tan_arg_real, abs_of_pos hq]
  field_simp

/-- The argument of the arctangent in line 46 is `-1` when the two parts have
opposite signs. -/
theorem atan_operand_opposite_sign (re im : ℝ) (h : re * im < 0) :
    |re / im| * realLibm.tan (realLibm.arg re im) = -1 := by
  have hre : re ≠ 0 := fun h0 => by simp [h0] at h
  have him : im ≠ 0 := fun h0 => by simp [h0] at h
  have hq : re / im < 0 := by
    have : re / im = re * im / (im * im) := by field_simp; ring
    rw [this]
    exact div_neg_of_neg_of_pos h (mul_self_pos.mpr him)
  rw [tan_arg_real, abs_of_neg hq]
  field_simp
  ring

/-- First quadrant: `th = π/4`. -/
theorem thGeneral_pos_pos (re im : ℝ) (hr : 0 < re) (hi : 0 < im) :
    thGeneral realLibm re im = Real.pi / 4 := by
  have h := atan_operand_same_sign re im (mul_pos hr hi)
  simp only [thGeneral, if_neg (not_lt.mpr hr.le), h]
  simp [realLibm]

/-- Fourth quadrant: `th = -π/4`. -/
theorem thGeneral_pos_neg (re im : ℝ) (hr : 0 < re) (hi : im < 0) :
    thGeneral realLibm re im = -(Real.pi / 4) := by
  have h := atan_operand_opposite_sign re im (mul_neg_of_pos_of_neg hr hi)
  simp only [thGeneral, if_neg (not_lt.mpr hr.le), h]
  simp [realLibm, Real.arctan_neg]

/-- Second quadrant: `th = 3π/4`. -/
theorem thGeneral_neg_pos (re im : ℝ) (hr : re < 0) (hi : 0 < im) :
    thGeneral realLibm re im = 3 * Real.pi / 4 := by
  have h := atan_operand_opposite_sign re im (mul_neg_of_neg_of_pos hr hi)
  simp only [thGeneral, if_pos hr, if_neg (not_lt.mpr hi.le), h]
  simp only [realLibm, Real.arctan_neg, Real.arctan_one]
  ring

/-- Third quadrant: `th = -3π/4`. -/
theorem thGeneral_neg_neg (re im : ℝ) (hr : re < 0) (hi : im < 0) :
    thGeneral realLibm re im = -(3 * Real.pi / 4) := by
  have h := atan_operand_same_sign re im (mul_pos_of_neg_of_neg hr hi)
  simp only [thGeneral, if_pos hr, if_pos hi, h]
  simp only [realLibm, Real.arctan_one]
  ring

/-- Over the reals and outside the two axes, the final `th` is the arctangent
of `(a/b)*tan(phase)` plus the correction of line 48. -/
theorem drawRect_th_formula (re im : ℝ) (hr : re ≠ 0) (hi : im ≠ 0) :
    ∃ s, drawRect realLibm ⟨re, im⟩ = some s ∧ s.a = |re| / 5 ∧ s.b = |im| / 5 ∧
      s.th = Real.arctan (s.a / s.b * Real.tan (Complex.arg ⟨re, im⟩)) +
        (if re < 0 then (if im < 0 then -Real.pi else Real.pi) else 0) := by
  obtain ⟨s, hs, ha, hb, hth, -⟩ := drawRect_arc realLibm re im hi
  rw [if_neg hr] at ha hth
  refine ⟨s, hs, ha, hb, ?_⟩
  have hq : s.a / s.b = |re / im| := by
    rw [ha, hb, abs_div]
    field_simp
  rw [hth, hq]
  by_cases h : re < 0
  · simp only [thGeneral, if_pos h]
    rfl
  · simp only [thGeneral, if_neg h, add_zero]
    rfl

/-- Over the reals the final `th` takes one of six values, selected by the
signs of the two parts. -/
theorem drawRect_th_value (re im : ℝ) (hi : im ≠ 0) :
    ∃ s, drawRect realLibm ⟨re, im⟩ = some s ∧
      s.a = (if re = 0 then 1 / 5 else |re| / 5) ∧ s.b = |im| / 5 ∧
      s.arc = arcCurve realLibm s.a s.b s.th ∧
      s.th = (if re = 0 then (if im < 0 then -(Real.pi / 2) else Real.pi / 2)
        else if 0 < re then (if im < 0 then -(Real.pi / 4) else Real.pi / 4)
        else (if im < 0 then -(3 * Real.pi / 4) else 3 * Real.pi / 4)) := by
  obtain ⟨s, hs, ha, hb, hth, harc, -⟩ := drawRect_arc realLibm re im hi
  refine ⟨s, hs, ha, hb, harc, ?_⟩
  rw [hth]
  by_cases h0 : re = 0
  · simp only [if_pos h0]
    by_cases hn : im < 0
    · simp only [if_pos hn]
      simp only [realLibm]
      ring
    · simp only [if_neg hn]
      rfl
  · simp only [if_neg h0]
    have hip : ¬ im < 0 → 0 < im := fun hn => lt_of_le_of_ne (not_lt.mp hn) (Ne.symm hi)
    by_cases hp : 0 < re
    · simp only [if_pos hp]
      by_cases hn : im < 0
      · simp only [if_pos hn]
        exact thGeneral_pos_neg re im hp hn
      · simp only [if_neg hn]
        exact thGeneral_pos_pos re im hp (hip hn)
    · simp only [if_neg hp]
      have hr : re < 0 := lt_of_le_of_ne (not_lt.mp hp) h0
      by_cases hn : im < 0
      · simp only [if_pos hn]
        exact thGeneral_neg_neg re im hr hn
      · simp only [if_neg hn]
        exact thGeneral_neg_pos re im hr (hip hn)

/-- The final `th` lies strictly between `0` and `π` in the upper half plane
and strictly between `-π` and `0` in the lower one. -/
theorem drawRect_th_bounds (re im : ℝ) (hi : im ≠ 0) :
    ∃ s, drawRect realLibm ⟨re, im⟩ = some s ∧
      s.a = (if re = 0 then 1 / 5 else |re| / 5) ∧ s.b = |im| / 5 ∧
      s.arc = arcCurve realLibm s.a s.b s.th ∧
      (0 < im → 0 < s.th ∧ s.th < Real.pi) ∧
      (im < 0 → -Real.pi < s.th ∧ s.th < 0) := by
  obtain ⟨s, hs, ha, hb, harc, hth⟩ := drawRect_th_value re im hi
  refine ⟨s, hs, ha, hb, harc, ?_, ?_⟩
  · intro hp
    have hn : ¬ im < 0 := not_lt.mpr hp.le
    simp only [if_neg hn] at hth
    have hpi := Real.pi_pos
    split_ifs at hth <;> rw [hth] <;> constructor <;> linarith
  · intro hn
    simp only [if_pos hn] at hth
    have hpi := Real.pi_pos
    split_ifs at hth <;> rw [hth] <;> constructor <;> linarith

/-- The cosine of `3π/4`. -/
theorem cos_three_pi_div_four : Real.cos (3 * Real.pi / 4) = -(√2 / 2) := by
  rw [show 3 * Real.pi / 4 = Real.pi - Real.pi / 4 by ring, Real.cos_pi_sub,
    Real.cos_pi_div_four]

/-- The sine of `3π/4`. -/
theorem sin_three_pi_div_four : Real.sin (3 * Real.pi / 4) = √2 / 2 := by
  rw [show 3 * Real.pi / 4 = Real.pi - Real.pi / 4 by ring, Real.sin_pi_sub,
    Real.sin_pi_div_four]

/-- The ratio `√2/10` lies strictly between `0` and `1`. -/
theorem sqrt_two_div_ten_bounds : 0 < √2 / 10 ∧ √2 / 10 < 1 := by
  have h0 : (0 : ℝ) < √2 := Real.sqrt_pos.mpr (by norm_num)
  have h2 : √2 * √2 = 2 := Real.mul_self_sqrt (by norm_num)
  constructor
  · positivity
  · nlinarith

/-- The `float` product of an infinity and a zero is a NaN. -/
theorem mul32_inf_zero (a : Bool) (z : Fp) (hz : eqZero z = true) :
    mul32 (Fp.inf a) z = Fp.nan := by
  cases z with
  | nan => simp [eqZero] at hz
  | inf b => simp [eqZero] at hz
  | fin b m e =>
    have hm : m = 0 := by simpa [eqZero] using hz
    simp [mul32, mulTo, hm]

/-- A `float` product with a NaN on the right is a NaN. -/
theorem mul32_nan_right (x : Fp) : mul32 x Fp.nan = Fp.nan := by
  cases x <;> rfl

/-! ## The assertion -/

/-- C4: the arc computation fails if and only if `imag == 0`.  For `imag = 0`
and any `real` the result is `none` (no scene, no arc parameters); for every
input with `imag ≠ 0`, `real = 0` included, a scene is returned; there is no
other failure.  This holds for every C library `M`. -/
theorem drawRect_fails_iff_imag_zero {F : Type} [LinearOrderedField F] (M : Libm F)
    (real imag : F) :
    (drawRect M ⟨real, imag⟩ = none ↔ imag = 0) ∧
      ((∃ s, drawRect M ⟨real, imag⟩ = some s) ↔ imag ≠ 0) := by
  by_cases h : imag = 0
  · simp [drawRect, h]
  · simp [drawRect, h]

/-! ## Arc parameters -/

/-- C3: degenerate override.  For `imag ≠ 0` and `real = 0` the arc
parameters are `a = 1/5`, `b = |imag|/5` and `th = π/2` if `imag > 0`, else
`-π/2`, whatever the arctangent formula computed first (the statement holds
for every C library `M`); for `real ≠ 0` the semi-axis `a` is `|real|/5`. -/
theorem arc_degenerate_override {F : Type} [LinearOrderedField F] (M : Libm F)
    (real imag : F) (h : imag ≠ 0) :
    ∃ s, drawRect M ⟨real, imag⟩ = some s ∧
      (real = 0 → s.a = 1 / 5 ∧ s.b = |imag| / 5 ∧
        s.th = if 0 < imag then M.pi / 2 else -(M.pi / 2)) ∧
      (real ≠ 0 → s.a = |real| / 5) := by
  obtain ⟨s, hs, ha, hb, hth, -⟩ := drawRect_arc M real imag h
  refine ⟨s, hs, ?_, ?_⟩
  · intro h0
    refine ⟨by rw [ha, if_pos h0], hb, ?_⟩
    rw [hth, if_pos h0]
    rcases lt_or_gt_of_ne h with hi | hi
    · rw [if_pos hi, if_neg (not_lt.mpr hi.le), neg_div]
    · rw [if_neg (not_lt.mpr hi.le), if_pos hi]
  · intro h0
    rw [ha, if_neg h0]

/-- Witness for C3: the value `(0, 5)` gives `a = 0.2` and `th = +π/2`. -/
theorem arc_degenerate_override_witness :
    (5 : ℝ) ≠ 0 ∧ ∃ s, drawRect realLibm ⟨0, 5⟩ = some s ∧ s.a = 0.2 ∧ s.b = 1 ∧
      s.th = Real.pi / 2 := by
  refine ⟨by norm_num, ?_⟩
  obtain ⟨s, hs, h0, -⟩ := arc_degenerate_override realLibm 0 5 (by norm_num)
  obtain ⟨ha, hb, hth⟩ := h0 rfl
  refine ⟨s, hs, ?_, ?_, ?_⟩
  · rw [ha]; norm_num
  · rw [hb]; norm_num
  · rw [hth, if_pos (by norm_num)]; rfl

/-! ## Labels -/

/-- C5: the `|z|` label is not placed by the quadrant when the product of
line 82 underflows.  In binary32, at `real = 2^-100`, `imag = -2^-100` (fourth
quadrant, `imag ≠ 0`, `real ≠ 0`) the product `real*imag` rounds to `-0`, the
test `real*imag < 0.0f` fails and the vertical position is `After`, where the
claim and the comment of line 81 ask for `Before`; the fourth-quadrant value
`(2, -3)` does get `Before`.  This holds for every C library `M`. -/
theorem modLabel_quadrant_underflow (M : Libm Fp) :
    (∃ s, drawRect32 M ⟨Fp.fin false 1 (-100), Fp.fin true 1 (-100)⟩ = some s ∧
      s.modLabel.verticalPosition = RelativePosition.After) ∧
    (∃ s, drawRect32 M ⟨Fp.fin false 2 0, Fp.fin true 3 0⟩ = some s ∧
      s.modLabel.verticalPosition = RelativePosition.Before) ∧
    mul32 (Fp.fin false 1 (-100)) (Fp.fin true 1 (-100)) = Fp.fin true 0 (-149) :=
  ⟨⟨_, rfl, rfl⟩, ⟨_, rfl, rfl⟩, by decide⟩

/-- C6: the axis-projection labels.  For `imag ≠ 0` and every sign of `real`
(zero included) the `re(z)` label is anchored at `(real, 0)` with horizontal
position `None` and vertical position `Before` if `imag ≥ 0`, else `After`;
the imaginary-part label is anchored at `(0, imag)` with vertical position
`None` and horizontal position `Before` if `real ≥ 0`, else `After`. -/
theorem axis_labels_placement {F : Type} [LinearOrderedField F] (M : Libm F)
    (real imag : F) (h : imag ≠ 0) :
    ∃ s, drawRect M ⟨real, imag⟩ = some s ∧
      (s.reLabel.x = real ∧ s.reLabel.y = 0 ∧
        s.reLabel.horizontalPosition = RelativePosition.None ∧
        (0 < imag → s.reLabel.verticalPosition = RelativePosition.Before) ∧
        (imag < 0 → s.reLabel.verticalPosition = RelativePosition.After)) ∧
      (s.imLabel.x = 0 ∧ s.imLabel.y = imag ∧
        s.imLabel.verticalPosition = RelativePosition.None ∧
        (0 < real → s.imLabel.horizontalPosition = RelativePosition.Before) ∧
        (real = 0 → s.imLabel.horizontalPosition = RelativePosition.Before) ∧
        (real < 0 → s.imLabel.horizontalPosition = RelativePosition.After)) := by
  refine ⟨_, by simp only [drawRect, if_neg h]; rfl,
    ⟨rfl, rfl, rfl, ?_, ?_⟩, ⟨rfl, rfl, rfl, ?_, ?_, ?_⟩⟩
  · intro hi
    simp [hi.le]
  · intro hi
    simp [not_le.mpr hi]
  · intro hr
    simp [hr.le]
  · intro hr
    simp [hr]
  · intro hr
    simp [not_le.mpr hr]

/-- Witness for C6: the six sign combinations `(3, 4)`, `(3, -4)`, `(-3, 4)`,
`(-3, -4)`, `(0, 4)` and `(0, -4)`. -/
theorem axis_labels_placement_witness :
    (∃ s, drawRect realLibm ⟨3, 4⟩ = some s ∧
      s.reLabel.verticalPosition = RelativePosition.Before ∧
      s.imLabel.horizontalPosition = RelativePosition.Before) ∧
    (∃ s, drawRect realLibm ⟨3, -4⟩ = some s ∧
      s.reLabel.verticalPosition = RelativePosition.After ∧
      s.imLabel.horizontalPosition = RelativePosition.Before) ∧
    (∃ s, drawRect realLibm ⟨-3, 4⟩ = some s ∧
      s.reLabel.verticalPosition = RelativePosition.Before ∧
      s.imLabel.horizontalPosition = RelativePosition.After) ∧
    (∃ s, drawRect realLibm ⟨-3, -4⟩ = some s ∧
      s.reLabel.verticalPosition = RelativePosition.After ∧
      s.imLabel.horizontalPosition = RelativePosition.After) ∧
    (∃ s, drawRect realLibm ⟨0, 4⟩ = some s ∧
      s.reLabel.verticalPosition = RelativePosition.Before ∧
      s.imLabel.horizontalPosition = RelativePosition.Before) ∧
    (∃ s, drawRect realLibm ⟨0, -4⟩ = some s ∧
      s.reLabel.verticalPosition = RelativePosition.After ∧
      s.imLabel.horizontalPosition = RelativePosition.Before) := by
  refine ⟨?_, ?_, ?_, ?_, ?_, ?_⟩
  · obtain ⟨s, hs, ⟨-, -, -, hp, -⟩, ⟨-, -, -, hq, -, -⟩⟩ :=
      axis_labels_placement realLibm 3 4 (by norm_num)
    exact ⟨s, hs, hp (by norm_num), hq (by norm_num)⟩
  · obtain ⟨s, hs, ⟨-, -, -, -, hp⟩, ⟨-, -, -, hq, -, -⟩⟩ :=
      axis_labels_placement realLibm 3 (-4) (by norm_num)
    exact ⟨s, hs, hp (by norm_num), hq (by norm_num)⟩
  · obtain ⟨s, hs, ⟨-, -, -, hp, -⟩, ⟨-, -, -, -, -, hq⟩⟩ :=
      axis_labels_placement realLibm (-3) 4 (by norm_num)
    exact ⟨s, hs, hp (by norm_num), hq (by norm_num)⟩
  · obtain ⟨s, hs, ⟨-, -, -, -, hp⟩, ⟨-, -, -, -, -, hq⟩⟩ :=
      axis_labels_placement realLibm (-3) (-4) (by norm_num)
    exact ⟨s, hs, hp (by norm_num), hq (by norm_num)⟩
  · obtain ⟨s, hs, ⟨-, -, -, hp, -⟩, ⟨-, -, -, -, hq, -⟩⟩ :=
      axis_labels_placement realLibm 0 4 (by norm_num)
    exact ⟨s, hs, hp (by norm_num), hq rfl⟩
  · obtain ⟨s, hs, ⟨-, -, -, -, hp⟩, ⟨-, -, -, -, hq, -⟩⟩ :=
      axis_labels_placement realLibm 0 (-4) (by norm_num)
    exact ⟨s, hs, hp (by norm_num), hq rfl⟩

/-- C7: the `arg(z)` label is not anchored at `(a, 0)` for every
`real ≥ 0`.  In binary32, at `real = 2^100`, `imag = 2^-100`, the quotient
`real/imag` of line 46 overflows to `+∞`; with a C library whose `std::arg`
returns a zero there (the exact angle, about `2^-200`, is below every
binary32 number), whose `tan` maps a zero to a zero and whose `atan`, `cos`
and `sin` map a NaN to a NaN, the product `∞ * 0` is a NaN, so are `th` and
both coordinates of the anchor computed on line 96, while `a = 2^100/5` is
finite. -/
theorem argLabel_anchor_nan (M : Libm Fp)
    (harg : eqZero (M.arg (Fp.fin false 1 100) (Fp.fin false 1 (-100))) = true)
    (htan : ∀ z, eqZero z = true → eqZero (M.tan z) = true)
    (hatan : M.atan Fp.nan = Fp.nan) (hcos : M.cos Fp.nan = Fp.nan)
    (hsin : M.sin Fp.nan = Fp.nan) :
    ∃ s, drawRect32 M ⟨Fp.fin false 1 100, Fp.fin false 1 (-100)⟩ = some s ∧
      s.a = Fp.fin false 13421773 74 ∧ s.th = Fp.nan ∧
      s.argLabel.x = Fp.nan ∧ s.argLabel.y = Fp.nan ∧
      s.argLabel.horizontalPosition = RelativePosition.After ∧
      s.argLabel.verticalPosition = RelativePosition.After := by
  have hq : div32 (Fp.fin false 1 100) (Fp.fin false 1 (-100)) = Fp.inf false := by decide
  have hth : thGeneral32 M (Fp.fin false 1 100) (Fp.fin false 1 (-100)) = Fp.nan := by
    have hlt : ltZero (Fp.fin false 1 100) = false := rfl
    simp only [thGeneral32, hq, hlt, fabs, Bool.false_eq_true, if_false]
    rw [mul32_inf_zero false _ (htan _ harg), hatan]
  have hs : ∃ s, drawRect32 M ⟨Fp.fin false 1 100, Fp.fin false 1 (-100)⟩ = some s ∧
      s.a = div32 (Fp.fin false 1 100) (Fp.fin false 5 0) ∧
      s.th = thGeneral32 M (Fp.fin false 1 100) (Fp.fin false 1 (-100)) ∧
      s.argLabel.x = mul32 s.a (M.cos (mul32 (Fp.fin false 0 0) s.th)) ∧
      s.argLabel.y = mul32 s.b (M.sin (mul32 (Fp.fin false 0 0) s.th)) ∧
      s.argLabel.horizontalPosition = RelativePosition.After ∧
      s.argLabel.verticalPosition = RelativePosition.After :=
    ⟨_, rfl, rfl, rfl, rfl, rfl, rfl, rfl⟩
  obtain ⟨s, h0, ha, ht, hx, hy, hh, hv⟩ := hs
  rw [hth] at ht
  refine ⟨s, h0, ?_, ht, ?_, ?_, hh, hv⟩
  · rw [ha]
    decide
  · rw [hx, ht, mul32_nan_right, hcos, mul32_nan_right]
  · rw [hy, ht, mul32_nan_right, hsin, mul32_nan_right]

/-- Witness for C7: the assumptions on the C library are met by the library
of leading terms, and the anchor computed with it at `(2^100, 2^-100)` is
`(NaN, NaN)`. -/
theorem argLabel_anchor_nan_witness :
    ∃ s, drawRect32 leadingTermLibm ⟨Fp.fin false 1 100, Fp.fin false 1 (-100)⟩ = some s ∧
      s.a = Fp.fin false 13421773 74 ∧ s.th = Fp.nan ∧
      s.argLabel.x = Fp.nan ∧ s.argLabel.y = Fp.nan ∧
      s.argLabel.horizontalPosition = RelativePosition.After ∧
      s.argLabel.verticalPosition = RelativePosition.After :=
  argLabel_anchor_nan leadingTermLibm (by decide) (fun _ hz => hz) rfl rfl rfl

/-! ## The angular span over the reals -/

/-- C2: over exact real arithmetic, for `real ≠ 0` and `imag ≠ 0` the
angular span is `th = atan((a/b)*tan(phase)) + adj` with `a = |real|/5`,
`b = |imag|/5`, `phase = atan2(imag, real)` and `adj = 0` if `real > 0`,
`adj = +π` if `real < 0` and `imag > 0`, `adj = -π` if `real < 0` and
`imag < 0`. -/
theorem th_arctan_formula (real imag : ℝ) (hr : real ≠ 0) (hi : imag ≠ 0) :
    ∃ s, drawRect realLibm ⟨real, imag⟩ = some s ∧
      s.a = |real| / 5 ∧ s.b = |imag| / 5 ∧
      (0 < real →
        s.th = Real.arctan (s.a / s.b * Real.tan (Complex.arg ⟨real, imag⟩)) + 0) ∧
      (real < 0 → 0 < imag →
        s.th = Real.arctan (s.a / s.b * Real.tan (Complex.arg ⟨real, imag⟩)) + Real.pi) ∧
      (real < 0 → imag < 0 →
        s.th = Real.arctan (s.a / s.b * Real.tan (Complex.arg ⟨real, imag⟩)) + -Real.pi) := by
  obtain ⟨s, hs, ha, hb, hth⟩ := drawRect_th_formula real imag hr hi
  refine ⟨s, hs, ha, hb, ?_, ?_, ?_⟩
  · intro h
    rw [hth, if_neg (not_lt.mpr h.le)]
  · intro h h2
    rw [hth, if_pos h, if_neg (not_lt.mpr h2.le)]
  · intro h h2
    rw [hth, if_pos h, if_pos h2]

/-- Witness for C2: `(3, 4)` gives `a = 0.6`, `b = 0.8` and `th = π/4` with
no correction; `(-2, 3)` takes the `+π` branch; `(-2, -3)` takes the `-π`
branch. -/
theorem th_arctan_formula_witness :
    (∃ s, drawRect realLibm ⟨3, 4⟩ = some s ∧ s.a = 0.6 ∧ s.b = 0.8 ∧
      s.th = Real.arctan (s.a / s.b * Real.tan (Complex.arg ⟨3, 4⟩)) + 0 ∧
      s.th = Real.pi / 4) ∧
    (∃ s, drawRect realLibm ⟨-2, 3⟩ = some s ∧
      s.th = Real.arctan (s.a / s.b * Real.tan (Complex.arg ⟨-2, 3⟩)) + Real.pi) ∧
    (∃ s, drawRect realLibm ⟨-2, -3⟩ = some s ∧
      s.th = Real.arctan (s.a / s.b * Real.tan (Complex.arg ⟨-2, -3⟩)) + -Real.pi) := by
  refine ⟨?_, ?_, ?_⟩
  · obtain ⟨s, hs, ha, hb, hth, -, -⟩ :=
      th_arctan_formula 3 4 (by norm_num) (by norm_num)
    have h := hth (by norm_num)
    refine ⟨s, hs, by rw [ha]; norm_num, by rw [hb]; norm_num, h, ?_⟩
    have hq : s.a / s.b * Real.tan (Complex.arg ⟨3, 4⟩) = 1 := by
      rw [ha, hb, Complex.tan_arg]
      norm_num
    rw [h, hq, Real.arctan_one, add_zero]
  · obtain ⟨s, hs, -, -, -, hth, -⟩ :=
      th_arctan_formula (-2) 3 (by norm_num) (by norm_num)
    exact ⟨s, hs, hth (by norm_num) (by norm_num)⟩
  · obtain ⟨s, hs, -, -, -, -, hth⟩ :=
      th_arctan_formula (-2) (-3) (by norm_num) (by norm_num)
    exact ⟨s, hs, hth (by norm_num) (by norm_num)⟩

/-- C8, as stated, fails at `(-2, 3)`: the code computes
`th = atan((a/b)*tan(phase)) + π = 3π/4`, not `atan((a/b)*tan(phase)) - π`. -/
theorem th_adjust_first_wording_fails :
    ∃ s, drawRect realLibm ⟨-2, 3⟩ = some s ∧ s.th = 3 * Real.pi / 4 ∧
      s.th ≠ Real.arctan (s.a / s.b * Real.tan (Complex.arg ⟨-2, 3⟩)) - Real.pi := by
  obtain ⟨s, hs, -, -, hth⟩ := drawRect_th_formula (-2) 3 (by norm_num) (by norm_num)
  obtain ⟨s2, hs2, -, -, -, hval⟩ := drawRect_th_value (-2) 3 (by norm_num)
  rw [hs] at hs2
  cases hs2
  refine ⟨s, hs, ?_, ?_⟩
  · rw [hval]
    norm_num
  · rw [if_pos (by norm_num), if_neg (by norm_num)] at hth
    intro hcon
    have hpi := Real.pi_pos
    rw [hth] at hcon
    linarith

/-- C8, amended: for `real < 0` and `imag ≠ 0` the computed `th` is
`atan((a/b)*tan(phase)) - π` if `imag < 0` and `atan((a/b)*tan(phase)) + π`
otherwise (`π` is added with the sign of `imag`). -/
theorem th_adjust_left_half_plane (real imag : ℝ) (hr : real < 0) (hi : imag ≠ 0) :
    ∃ s, drawRect realLibm ⟨real, imag⟩ = some s ∧
      s.a = |real| / 5 ∧ s.b = |imag| / 5 ∧
      s.th = if imag < 0
        then Real.arctan (s.a / s.b * Real.tan (Complex.arg ⟨real, imag⟩)) - Real.pi
        else Real.arctan (s.a / s.b * Real.tan (Complex.arg ⟨real, imag⟩)) + Real.pi := by
  obtain ⟨s, hs, ha, hb, hth⟩ := drawRect_th_formula real imag hr.ne hi
  refine ⟨s, hs, ha, hb, ?_⟩
  rw [hth, if_pos hr]
  split_ifs
  · ring
  · rfl

/-- Witness for the amended C8 at `(-2, 3)` and `(-2, -3)`. -/
theorem th_adjust_left_half_plane_witness :
    (∃ s, drawRect realLibm ⟨-2, 3⟩ = some s ∧
      s.th = Real.arctan (s.a / s.b * Real.tan (Complex.arg ⟨-2, 3⟩)) + Real.pi) ∧
    (∃ s, drawRect realLibm ⟨-2, -3⟩ = some s ∧
      s.th = Real.arctan (s.a / s.b * Real.tan (Complex.arg ⟨-2, -3⟩)) - Real.pi) := by
  constructor
  · obtain ⟨s, hs, -, -, hth⟩ :=
      th_adjust_left_half_plane (-2) 3 (by norm_num) (by norm_num)
    rw [if_neg (by norm_num)] at hth
    exact ⟨s, hs, hth⟩
  · obtain ⟨s, hs, -, -, hth⟩ :=
      th_adjust_left_half_plane (-2) (-3) (by norm_num) (by norm_num)
    rw [if_pos (by norm_num)] at hth
    exact ⟨s, hs, hth⟩

/-- C9: over exact real arithmetic, for `real ≠ 0` and `imag ≠ 0` the
angular span depends only on the signs of the two parts: `th = π/4` in the
first quadrant, `-π/4` in the fourth, `3π/4` in the second and `-3π/4` in the
third. -/
theorem th_depends_on_signs_only (real imag : ℝ) (hr : real ≠ 0) (hi : imag ≠ 0) :
    ∃ s, drawRect realLibm ⟨real, imag⟩ = some s ∧
      (0 < real → 0 < imag → s.th = Real.pi / 4) ∧
      (0 < real → imag < 0 → s.th = -(Real.pi / 4)) ∧
      (real < 0 → 0 < imag → s.th = 3 * Real.pi / 4) ∧
      (real < 0 → imag < 0 → s.th = -(3 * Real.pi / 4)) := by
  obtain ⟨s, hs, -, -, -, hth⟩ := drawRect_th_value real imag hi
  rw [if_neg hr] at hth
  refine ⟨s, hs, ?_, ?_, ?_, ?_⟩
  · intro h1 h2
    rw [hth, if_pos h1, if_neg (not_lt.mpr h2.le)]
  · intro h1 h2
    rw [hth, if_pos h1, if_pos h2]
  · intro h1 h2
    rw [hth, if_neg (not_lt.mpr h1.le), if_neg (not_lt.mpr h2.le)]
  · intro h1 h2
    rw [hth, if_neg (not_lt.mpr h1.le), if_pos h2]

/-- Witness for C9: `(3, 4)` and `(100, 1/7)` both give `π/4`; `(3, -4)`
gives `-π/4`, `(-2, 3)` gives `3π/4` and `(-2, -3)` gives `-3π/4`. -/
theorem th_depends_on_signs_only_witness :
    (∃ s, drawRect realLibm ⟨3, 4⟩ = some s ∧ s.th = Real.pi / 4) ∧
    (∃ s, drawRect realLibm ⟨100, 1 / 7⟩ = some s ∧ s.th = Real.pi / 4) ∧
    (∃ s, drawRect realLibm ⟨3, -4⟩ = some s ∧ s.th = -(Real.pi / 4)) ∧
    (∃ s, drawRect realLibm ⟨-2, 3⟩ = some s ∧ s.th = 3 * Real.pi / 4) ∧
    (∃ s, drawRect realLibm ⟨-2, -3⟩ = some s ∧ s.th = -(3 * Real.pi / 4)) := by
  refine ⟨?_, ?_, ?_, ?_, ?_⟩
  · obtain ⟨s, hs, h, -, -, -⟩ :=
      th_depends_on_signs_only 3 4 (by norm_num) (by norm_num)
    exact ⟨s, hs, h (by norm_num) (by norm_num)⟩
  · obtain ⟨s, hs, h, -, -, -⟩ :=
      th_depends_on_signs_only 100 (1 / 7) (by norm_num) (by norm_num)
    exact ⟨s, hs, h (by norm_num) (by norm_num)⟩
  · obtain ⟨s, hs, -, h, -, -⟩ :=
      th_depends_on_signs_only 3 (-4) (by norm_num) (by norm_num)
    exact ⟨s, hs, h (by norm_num) (by norm_num)⟩
  · obtain ⟨s, hs, -, -, h, -⟩ :=
      th_depends_on_signs_only (-2) 3 (by norm_num) (by norm_num)
    exact ⟨s, hs, h (by norm_num) (by norm_num)⟩
  · obtain ⟨s, hs, -, -, -, h⟩ :=
      th_depends_on_signs_only (-2) (-3) (by norm_num) (by norm_num)
    exact ⟨s, hs, h (by norm_num) (by norm_num)⟩

/-! ## The shape of the arc -/

/-- C1: over exact real arithmetic, for every value with `imag ≠ 0`
(`real = 0` included) the arc ends on the radius segment: the arc point at
`t = 1`, computed with the `a`, `b`, `th` of `drawRect`, is `(k*real, k*imag)`
for some `k` with `0 < k < 1`. -/
theorem arc_ends_on_radius (real imag : ℝ) (h : imag ≠ 0) :
    ∃ s, drawRect realLibm ⟨real, imag⟩ = some s ∧
      s.arc = arcCurve realLibm s.a s.b s.th ∧
      ∃ k, 0 < k ∧ k < 1 ∧ s.arc 1 = (k * real, k * imag) ∧
        s.arc 1 = s.segment k := by
  obtain ⟨s, hs, -, -, -, -, hseg⟩ := drawRect_arc realLibm real imag h
  obtain ⟨s2, hs2, ha, hb, harc, hth⟩ := drawRect_th_value real imag h
  rw [hs] at hs2
  cases hs2
  refine ⟨s, hs, harc, ?_⟩
  have key : ∃ k, 0 < k ∧ k < 1 ∧ s.arc 1 = (k * real, k * imag) := by
    rw [harc, ha, hb, hth]
    simp only [arcCurve, realLibm, one_mul]
    by_cases h0 : real = 0
    · refine ⟨1 / 5, by norm_num, by norm_num, ?_⟩
      simp only [if_pos h0]
      by_cases hn : imag < 0
      · simp only [if_pos hn, h0, abs_of_neg hn, Real.cos_neg, Real.sin_neg,
          Real.cos_pi_div_two, Real.sin_pi_div_two]
        ext
        · simp
        · simp; ring
      · have hp : 0 < imag := lt_of_le_of_ne (not_lt.mp hn) (Ne.symm h)
        simp only [if_neg hn, h0, abs_of_pos hp, Real.cos_pi_div_two, Real.sin_pi_div_two]
        ext
        · simp
        · simp; ring
    · refine ⟨√2 / 10, sqrt_two_div_ten_bounds.1, sqrt_two_div_ten_bounds.2, ?_⟩
      simp only [if_neg h0]
      by_cases hp : 0 < real
      · simp only [if_pos hp, abs_of_pos hp]
        by_cases hn : imag < 0
        · simp only [if_pos hn, abs_of_neg hn, Real.cos_neg, Real.sin_neg,
            Real.cos_pi_div_four, Real.sin_pi_div_four]
          ext <;> simp <;> ring
        · have hi : 0 < imag := lt_of_le_of_ne (not_lt.mp hn) (Ne.symm h)
          simp only [if_neg hn, abs_of_pos hi, Real.cos_pi_div_four, Real.sin_pi_div_four]
          ext <;> simp <;> ring
      · have hr : real < 0 := lt_of_le_of_ne (not_lt.mp hp) h0
        simp only [if_neg hp, abs_of_neg hr]
        by_cases hn : imag < 0
        · simp only [if_pos hn, abs_of_neg hn, Real.cos_neg, Real.sin_neg,
            cos_three_pi_div_four, sin_three_pi_div_four]
          ext <;> simp <;> ring
        · have hi : 0 < imag := lt_of_le_of_ne (not_lt.mp hn) (Ne.symm h)
          simp only [if_neg hn, abs_of_pos hi, cos_three_pi_div_four, sin_three_pi_div_four]
          ext <;> simp <;> ring
  obtain ⟨k, hk0, hk1, hk⟩ := key
  refine ⟨k, hk0, hk1, hk, ?_⟩
  rw [hk, hseg]
  simp only [segmentCurve]
  ext <;> simp <;> ring

/-- Witness for C1 at `(3, 4)` and at the purely imaginary value `(0, 5)`. -/
theorem arc_ends_on_radius_witness :
    (∃ s, drawRect realLibm ⟨3, 4⟩ = some s ∧
      ∃ k, 0 < k ∧ k < 1 ∧ s.arc 1 = (k * 3, k * 4)) ∧
    (∃ s, drawRect realLibm ⟨0, 5⟩ = some s ∧
      ∃ k, 0 < k ∧ k < 1 ∧ s.arc 1 = (k * 0, k * 5)) := by
  constructor
  · obtain ⟨s, hs, -, k, h0, h1, hk, -⟩ := arc_ends_on_radius 3 4 (by norm_num)
    exact ⟨s, hs, k, h0, h1, hk⟩
  · obtain ⟨s, hs, -, k, h0, h1, hk, -⟩ := arc_ends_on_radius 0 5 (by norm_num)
    exact ⟨s, hs, k, h0, h1, hk⟩

/-- C10: over exact real arithmetic, for every value with `imag ≠ 0`
(`real = 0` included) the final `th` is non-zero, has the sign of `imag` and
satisfies `|th| < π`; hence for every `t` with `0 < t ≤ 1` the ordinate
`b*sin(t*th)` of the arc is strictly positive when `imag > 0` and strictly
negative when `imag < 0`, and the arc starts at `(a, 0)` with `a > 0`. -/
theorem arc_stays_off_real_axis (real imag : ℝ) (h : imag ≠ 0) :
    ∃ s, drawRect realLibm ⟨real, imag⟩ = some s ∧
      s.arc = arcCurve realLibm s.a s.b s.th ∧
      s.th ≠ 0 ∧ (0 < imag → 0 < s.th) ∧ (imag < 0 → s.th < 0) ∧ |s.th| < Real.pi ∧
      (∀ t : ℝ, 0 < t → t ≤ 1 →
        (0 < imag → 0 < (s.arc t).2) ∧ (imag < 0 → (s.arc t).2 < 0)) ∧
      s.arc 0 = (s.a, 0) ∧ 0 < s.a := by
  obtain ⟨s, hs, ha, hb, harc, hpos, hneg⟩ := drawRect_th_bounds real imag h
  have hbpos : 0 < s.b := by
    rw [hb]
    exact div_pos (abs_pos.mpr h) (by norm_num)
  have hapos : 0 < s.a := by
    rw [ha]
    split_ifs with h0
    · norm_num
    · exact div_pos (abs_pos.mpr h0) (by norm_num)
  refine ⟨s, hs, harc, ?_, fun hi => (hpos hi).1, fun hi => (hneg hi).2, ?_, ?_, ?_, hapos⟩
  · rcases lt_or_gt_of_ne h with hi | hi
    · exact (hneg hi).2.ne
    · exact (hpos hi).1.ne'
  · rcases lt_or_gt_of_ne h with hi | hi
    · rw [abs_of_neg (hneg hi).2]
      linarith [(hneg hi).1]
    · rw [abs_of_pos (hpos hi).1]
      exact (hpos hi).2
  · intro t ht0 ht1
    rw [harc]
    simp only [arcCurve, realLibm]
    constructor
    · intro hi
      obtain ⟨h1, h2⟩ := hpos hi
      have hlt : t * s.th < Real.pi := by nlinarith
      exact mul_pos hbpos (Real.sin_pos_of_pos_of_lt_pi (mul_pos ht0 h1) hlt)
    · intro hi
      obtain ⟨h1, h2⟩ := hneg hi
      have hgt : -Real.pi < t * s.th := by nlinarith
      have hlt : t * s.th < 0 := mul_neg_of_pos_of_neg ht0 h2
      exact mul_neg_of_pos_of_neg hbpos (Real.sin_neg_of_neg_of_neg_pi_lt hlt hgt)
  · rw [harc]
    simp [arcCurve, realLibm]

/-- Witness for C10 at `(-2, 3)` (upper half plane) and `(0, -5)` (lower half
plane, purely imaginary): the ordinate of the arc at `t = 1/2`. -/
theorem arc_stays_off_real_axis_witness :
    (∃ s, drawRect realLibm ⟨-2, 3⟩ = some s ∧ 0 < s.th ∧ |s.th| < Real.pi ∧
      0 < (s.arc (1 / 2)).2 ∧ s.arc 0 = (s.a, 0)) ∧
    (∃ s, drawRect realLibm ⟨0, -5⟩ = some s ∧ s.th < 0 ∧ |s.th| < Real.pi ∧
      (s.arc (1 / 2)).2 < 0 ∧ s.arc 0 = (s.a, 0)) := by
  constructor
  · obtain ⟨s, hs, -, -, hp, -, habs, hy, h0, -⟩ :=
      arc_stays_off_real_axis (-2) 3 (by norm_num)
    exact ⟨s, hs, hp (by norm_num), habs,
      (hy (1 / 2) (by norm_num) (by norm_num)).1 (by norm_num), h0⟩
  · obtain ⟨s, hs, -, -, -, hn, habs, hy, h0, -⟩ :=
      arc_stays_off_real_axis 0 (-5) (by norm_num)
    exact ⟨s, hs, hn (by norm_num), habs,
      (hy (1 / 2) (by norm_num) (by norm_num)).2 (by norm_num), h0⟩

end Calculation
